import Mathlib

/-!
Verification of the dcompass rule-table engine.

This file gives a shallow embedding of the routing-table core of the
dcompass DNS router (droute/src/router/table.rs and the matcher layer)
and proves the specification's claims about it:

- Table construction (Table.new): duplicate-tag rejection, the
  depth-first validation traversal with its single shared visited set
  (traverse), the accumulated set of used upstream names;
- per-query routing (Table.route / routeLoop);
- the Domain matcher's suffix trie (DTrie) and its construction from
  text sources (Domain.new).

Rust HashMap/HashSet values are embedded as lists: the rule map as an
association list with distinct keys (buildMap enforces distinctness
exactly as Table::new does), the visited set and the used set as lists
queried by membership.  The recursive validation traversal and the
routing loop take an explicit fuel argument; TRes.out / RouteRes.out
mark fuel exhaustion, and Table.new supplies fuel (map size + 1) that
is proved sufficient (lemma traverse_ne_out).
-/

namespace DCompass

/-- A DNS question; the core only ever inspects its name. -/
structure DnsQuery where
  name : String
deriving DecidableEq, Repr

/-- A DNS message: the question section, the answer records (abstract,
never inspected by the matchers modelled here), and an abstract payload
standing for all remaining content. -/
structure Message where
  queries : List DnsQuery
  answers : List Nat
  payload : Nat
deriving DecidableEq, Repr

/-- Message::new() — the empty message. -/
def Message.new : Message :=
  { queries := [], answers := [], payload := 0 }

/-- Errors of the table section, from TableError in table.rs. -/
inductive TableError where
  | RuleRecursion : String → TableError
  | UndefinedTag : String → TableError
  | MultipleDef : String → TableError
deriving DecidableEq, Repr

/-- Modelled from the spec: the Action sum (section 4.5); the actions
module is not among the provided sources.  Skip has no configuration,
Query carries the name of the upstream it dispatches to. -/
inductive Action where
  | skip : Action
  | query : String → Action
deriving DecidableEq, Repr

/-- Modelled from the spec: each Action variant declares statically the
set of upstream names it may use (section 4.5). -/
def Action.usedUpstreams : Action → List String
  | .skip => []
  | .query u => [u]

/-- One node of the Domain matcher's suffix trie: a "domain present"
mark and the children keyed by domain label.  Modelled from the spec
(section 4.6); the dmatcher crate is not among the provided sources.
Labels are kept as character lists. -/
inductive DTrie where
  | node : Bool → List (List Char × DTrie) → DTrie

/-- The empty trie. -/
def DTrie.empty : DTrie := .node false []

/-- Look up a child of a trie node by label. -/
def childFor : List (List Char × DTrie) → List Char → Option DTrie
  | [], _ => none
  | (k, t) :: rest, l => if k = l then some t else childFor rest l

/-- Replace the child keyed l, or append it if absent. -/
def setChild : List (List Char × DTrie) → List Char → DTrie → List (List Char × DTrie)
  | [], l, t => [(l, t)]
  | (k, t') :: rest, l, t =>
    if k = l then (k, t) :: rest else (k, t') :: setChild rest l t

/-- Modelled from the spec (section 4.6): insert a label sequence,
creating nodes as needed, and mark the terminal node "domain present". -/
def DTrie.insertLabels : DTrie → List (List Char) → DTrie
  | .node _ ch, [] => .node true ch
  | .node b ch, l :: ls =>
    let sub := match childFor ch l with
      | some t => t
      | none => DTrie.empty
    .node b (setChild ch l (DTrie.insertLabels sub ls))

/-- Modelled from the spec (section 4.6): walk the trie label by label;
if at any point a visited node is marked present the candidate matches;
a missing child or exhausting the labels without a marked node is a
non-match. -/
def DTrie.matchesLabels : DTrie → List (List Char) → Bool
  | .node b _, [] => b
  | .node b ch, l :: ls =>
    b || (match childFor ch l with
          | none => false
          | some t => DTrie.matchesLabels t ls)

/-- Split a character list on a separator character. -/
def splitOnChar (sep : Char) : List Char → List (List Char)
  | [] => [[]]
  | c :: rest =>
    if c = sep then [] :: splitOnChar sep rest
    else
      match splitOnChar sep rest with
      | [] => [[c]]
      | g :: gs => (c :: g) :: gs

/-- Modelled from the spec (section 4.6): split a domain into labels on
the dots, drop empty labels (this ignores a trailing root dot), reverse
so that the top-level label comes first, lower-case for
case-insensitive matching. -/
def domainKeyChars (cs : List Char) : List (List Char) :=
  ((splitOnChar '.' (cs.map Char.toLower)).filter (fun l => !l.isEmpty)).reverse

/-- The label key of a domain given as a string. -/
def domainKey (s : String) : List (List Char) :=
  domainKeyChars s.data

/-- Insert one domain pattern into the trie. -/
def DTrie.insertStr (t : DTrie) (s : String) : DTrie :=
  t.insertLabels (domainKey s)

/-- dmatcher's matches: does some inserted domain sit at a label
boundary at the end of the candidate? -/
def DTrie.matchesStr (t : DTrie) (s : String) : Bool :=
  t.matchesLabels (domainKey s)

/-- Whitespace recognised when trimming a line. -/
def isWs (c : Char) : Bool := c = ' ' || c = '\t' || c = '\r'

/-- Trim whitespace from both ends of a line. -/
def trimChars (l : List Char) : List Char :=
  ((l.dropWhile isWs).reverse.dropWhile isWs).reverse

/-- Modelled from the spec (sections 4.6 and 6): bulk insertion repeats
single insertion per line, after trimming whitespace, skipping blank
lines and comment lines; no line is ever rejected. -/
def DTrie.insertMulti (t : DTrie) (data : String) : DTrie :=
  (splitOnChar '\n' data.data).foldl
    (fun acc line =>
      let line := trimChars line
      if line.isEmpty || line.head? == some '#' then acc
      else acc.insertLabels (domainKeyChars line))
    t

/-- Matcher construction errors, from MatchError in matchers.rs (the
geoip variant is feature-gated off in the provided sources). -/
inductive MatchError where
  | IOError : MatchError
  | Malformatted : MatchError
deriving DecidableEq, Repr

/-- Domain::new from domain.rs: read every text source in order — a
failing read aborts with IOError — and bulk-insert each source's
content into one trie.  Reading a file is embedded as an
already-resolved Except value per source. -/
def Domain.newAux : List (Except Unit String) → DTrie → Except MatchError DTrie
  | [], acc => .ok acc
  | .error _ :: _, _ => .error .IOError
  | .ok data :: rest, acc => Domain.newAux rest (acc.insertMulti data)

/-- Domain matcher construction over a list of source reads. -/
def Domain.new (sources : List (Except Unit String)) : Except MatchError DTrie :=
  Domain.newAux sources DTrie.empty

/-- The Matcher sum restricted to the variants present in the provided
sources: Any (always true, modelled from the spec, section 4.4) and
Domain (domain.rs: the first query's name is matched against the trie;
the answer records are ignored). -/
inductive Matcher where
  | any : Matcher
  | domain : DTrie → Matcher

/-- Matcher::matches.  The Domain matcher indexes queries[0]; routing
only ever evaluates a matcher after Table::route has already unwrapped
the first question, so the empty-questions default here is never
observable through Table.route. -/
def Matcher.matches : Matcher → List DnsQuery → List Nat → Bool
  | .any, _, _ => true
  | .domain d, queries, _ =>
    match queries.head? with
    | none => false
    | some q => d.matchesStr q.name

/-- A Rule: tag, matcher, and the two (action, next tag) outcomes. -/
structure Rule where
  tag : String
  matcher : Matcher
  onMatch : Action × String
  noMatch : Action × String

/-- Rule::on_match_next. -/
def Rule.onMatchNext (r : Rule) : String := r.onMatch.2

/-- Rule::no_match_next. -/
def Rule.noMatchNext (r : Rule) : String := r.noMatch.2

/-- Modelled from the spec (sections 3 and 4.5): the upstream names a
Rule declares are those of its two actions; the rule module is not
among the provided sources. -/
def Rule.usedUpstreams (r : Rule) : List String :=
  r.onMatch.1.usedUpstreams ++ r.noMatch.1.usedUpstreams

/-- Association-list lookup standing for HashMap::get on the rule map. -/
def lookupT (m : List (String × Rule)) (t : String) : Option Rule :=
  match m with
  | [] => none
  | (k, r) :: rest => if k = t then some r else lookupT rest t

/-- The keys of the rule map. -/
def keysOf (m : List (String × Rule)) : List String := m.map Prod.fst

/-- The tags of a rule list. -/
def tagsOf (rs : List Rule) : List String := rs.map Rule.tag

/-- The association list a duplicate-free rule list is inserted into. -/
def mapOf (rs : List Rule) : List (String × Rule) :=
  rs.map (fun r => (r.tag, r))

/-- The first loop of Table::new: insert each rule into the tag map in
input order; a tag already present aborts with MultipleDef at once. -/
def buildMap : List Rule → List (String × Rule) → Except TableError (List (String × Rule))
  | [], acc => .ok acc
  | r :: rs, acc =>
    match lookupT acc r.tag with
    | some _ => .error (.MultipleDef r.tag)
    | none => buildMap rs (acc ++ [(r.tag, r)])

/-- Outcome of the fuelled validation traversal: fuel ran out, a
TableError, or success carrying the visited set and the used set. -/
inductive TRes where
  | out : TRes
  | err : TableError → TRes
  | ok : List String → List String → TRes
deriving Repr

/-- Table::traverse from table.rs: depth-first from the given tag with
ONE visited set l shared across the on-match and no-match branches
(never cleared between them) and one accumulator u of used upstream
names.  An unknown tag is UndefinedTag, a tag already in l is
RuleRecursion; otherwise the tag is marked visited, the on-match branch
is traversed (unless its next tag is "end"), then — with the visited
set as the first branch left it — the no-match branch, and finally the
rule's declared upstreams are appended to the accumulator. -/
def traverse (m : List (String × Rule)) : Nat → List String → List String → String → TRes
  | 0, _, _, _ => .out
  | fuel + 1, l, u, tag =>
    match lookupT m tag with
    | none => .err (.UndefinedTag tag)
    | some r =>
      if tag ∈ l then .err (.RuleRecursion tag)
      else
        match (if r.onMatchNext = "end" then TRes.ok (tag :: l) u
               else traverse m fuel (tag :: l) u r.onMatchNext) with
        | .out => .out
        | .err e => .err e
        | .ok l2 u2 =>
          match (if r.noMatchNext = "end" then TRes.ok l2 u2
                 else traverse m fuel l2 u2 r.noMatchNext) with
          | .out => .out
          | .err e => .err e
          | .ok l3 u3 => .ok l3 (u3 ++ r.usedUpstreams)

/-- A validated routing table: the rule map and the used upstream set. -/
structure Table where
  rules : List (String × Rule)
  used : List String

/-- Outcome of Table::new. -/
inductive NewRes where
  | out : NewRes
  | err : TableError → NewRes
  | ok : Table → NewRes

/-- Table::new: build the tag map rejecting duplicates, then validate
by traversing from "start".  The fuel (map size + 1) is proved
sufficient below. -/
def Table.new (rs : List Rule) : NewRes :=
  match buildMap rs [] with
  | .error e => .err e
  | .ok m =>
    match traverse m (m.length + 1) [] [] "start" with
    | .out => .out
    | .err e => .err e
    | .ok _ u => .ok { rules := m, used := u }

/-- Follow a list of branch choices (true = on-match, false = no-match)
from a tag through the rule map; stops with none on a missing rule or
on an edge into the "end" sentinel.  This is the specification-side
notion of a depth-first branch: follow m "start" d = some t says that
tag t is reachable from "start" along the branch path d. -/
def follow (m : List (String × Rule)) : String → List Bool → Option String
  | tag, [] => some tag
  | tag, b :: bs =>
    match lookupT m tag with
    | none => none
    | some r =>
      let nxt := if b then r.onMatchNext else r.noMatchNext
      if nxt = "end" then none else follow m nxt bs

/-- The tag sequence along a branch path, for stating path properties
such as "no tag repeated on a depth-first path". -/
def pathTags (m : List (String × Rule)) : String → List Bool → Option (List String)
  | tag, [] => some [tag]
  | tag, b :: bs =>
    match lookupT m tag with
    | none => none
    | some r =>
      let nxt := if b then r.onMatchNext else r.noMatchNext
      if nxt = "end" then none
      else
        match pathTags m nxt bs with
        | none => none
        | some ts => some (tag :: ts)

/-- Per-query routing state from table.rs. -/
structure State where
  resp : Message
  query : Message

/-- An action failure (taxonomy owned by the upstream collaborator). -/
inductive ActionErr where
  | upstreamFail : String → ActionErr
deriving DecidableEq, Repr

/-- Modelled from the spec (section 4.5): Skip does nothing; Query
sends the state's query to its upstream and overwrites the state's
response, propagating a failed dispatch. -/
def Action.act : Action → (String → Message → Except ActionErr Message) → State →
    Except ActionErr State
  | .skip, _, s => .ok s
  | .query u, send, s =>
    match send u s.query with
    | .error e => .error e
    | .ok resp => .ok { s with resp := resp }

/-- Modelled from the spec (section 4.3): Rule::route evaluates the
matcher on the query's questions and the response's records, executes
the chosen branch's action, and returns that branch's next tag. -/
def Rule.route (r : Rule) (send : String → Message → Except ActionErr Message)
    (s : State) : Except ActionErr (State × String) :=
  if r.matcher.matches s.query.queries s.resp.answers then
    match r.onMatch.1.act send s with
    | .error e => .error e
    | .ok s' => .ok (s', r.onMatchNext)
  else
    match r.noMatch.1.act send s with
    | .error e => .error e
    | .ok s' => .ok (s', r.noMatchNext)

/-- Outcome of routing: fuel ran out, the panic on a query without
questions, the panic on the rule-map unwrap, an action error, or the
final response. -/
inductive RouteRes where
  | out : RouteRes
  | panicNoQuestion : RouteRes
  | panicLookup : String → RouteRes
  | err : ActionErr → RouteRes
  | ok : Message → RouteRes
deriving Repr

/-- The while loop of Table::route: until the tag is "end", look the
tag up (a missing tag is the unwrap panic) and step through the rule. -/
def routeLoop (t : Table) (send : String → Message → Except ActionErr Message) :
    Nat → State → String → RouteRes
  | 0, _, _ => .out
  | fuel + 1, s, tag =>
    if tag = "end" then .ok s.resp
    else
      match lookupT t.rules tag with
      | none => .panicLookup tag
      | some r =>
        match r.route send s with
        | .error e => .err e
        | .ok (s', nxt) => routeLoop t send fuel s' nxt

/-- Table::route: unconditionally take the first question of the query
(panicNoQuestion embeds the unwrap panic on an empty question section),
then run the loop from "start" with a fresh State. -/
def Table.route (t : Table) (q : Message)
    (send : String → Message → Except ActionErr Message) (fuel : Nat) : RouteRes :=
  match q.queries.head? with
  | none => .panicNoQuestion
  | some _ => routeLoop t send fuel { resp := Message.new, query := q } "start"

/-! ### Concrete rule sets used by the claim theorems -/

/-- One rule: Any, on-match (Query "mock", "end"), no-match (Skip, "start").
This is the table of the spec's end-to-end property and of the
fail_table_recursion test. -/
def ruleLoop : Rule :=
  { tag := "start", matcher := .any
    onMatch := (.query "mock", "end"), noMatch := (.skip, "start") }

/-- The same rule with the no-match branch going to "end" instead. -/
def ruleStraight : Rule :=
  { tag := "start", matcher := .any
    onMatch := (.query "mock", "end"), noMatch := (.skip, "end") }

/-- The table built from ruleStraight. -/
def tableStraight : Table :=
  { rules := mapOf [ruleStraight], used := ["mock"] }

/-- Diamond rule set: both branches of "start" lead to "a". -/
def diamondStart : Rule :=
  { tag := "start", matcher := .any, onMatch := (.skip, "a"), noMatch := (.skip, "a") }

/-- The convergence tag of the diamond: both of its branches end. -/
def diamondA : Rule :=
  { tag := "a", matcher := .any, onMatch := (.query "up1", "end"), noMatch := (.skip, "end") }

/-- The diamond rule set. -/
def diamondRules : List Rule := [diamondStart, diamondA]

/-- Rule set where "c" is reachable along two branch paths but the
depth-first traversal meets the dangling tag "x" first. -/
def dangS : Rule := { tag := "start", matcher := .any, onMatch := (.skip, "a"), noMatch := (.skip, "b") }

/-- Second rule of the dangling-diamond set: on-match is dangling. -/
def dangA : Rule := { tag := "a", matcher := .any, onMatch := (.skip, "x"), noMatch := (.skip, "c") }

/-- Third rule of the dangling-diamond set. -/
def dangB : Rule := { tag := "b", matcher := .any, onMatch := (.skip, "c"), noMatch := (.skip, "end") }

/-- Convergence rule of the dangling-diamond set. -/
def dangC : Rule := { tag := "c", matcher := .any, onMatch := (.skip, "end"), noMatch := (.skip, "end") }

/-- The dangling-diamond rule set. -/
def dangRules : List Rule := [dangS, dangA, dangB, dangC]

/-- A start rule whose two branches both go straight to "end". -/
def endOnly : Rule :=
  { tag := "start", matcher := .any, onMatch := (.skip, "end"), noMatch := (.skip, "end") }

/-- A rule carrying the reserved tag "end". -/
def endTagged : Rule :=
  { tag := "end", matcher := .any, onMatch := (.query "z", "end"), noMatch := (.skip, "end") }

/-- A one-question query message. -/
def qOne : Message := { queries := [{ name := "x.com" }], answers := [], payload := 7 }

/-- A distinguishable upstream response. -/
def mockResp : Message := { queries := [], answers := [3], payload := 42 }

/-- An upstream function answering only "mock". -/
def sendMock : String → Message → Except ActionErr Message :=
  fun n _ => if n = "mock" then .ok mockResp else .error (.upstreamFail n)

/-! ### Lemmas about the rule map -/

theorem lookupT_eq_none {m : List (String × Rule)} {t : String} :
    lookupT m t = none ↔ t ∉ keysOf m := by
  induction m with
  | nil => simp [lookupT, keysOf]
  | cons p rest ih =>
    obtain ⟨k, r⟩ := p
    have hkeys : keysOf ((k, r) :: rest) = k :: keysOf rest := rfl
    by_cases hk : k = t
    · subst hk
      simp [lookupT, hkeys]
    · rw [hkeys]
      simp only [List.mem_cons, not_or]
      constructor
      · intro hn
        rw [lookupT, if_neg hk] at hn
        exact ⟨fun ht => hk ht.symm, ih.mp hn⟩
      · rintro ⟨_, hnot⟩
        rw [lookupT, if_neg hk]
        exact ih.mpr hnot

theorem lookupT_isSome {m : List (String × Rule)} {t : String} :
    (lookupT m t).isSome = true ↔ t ∈ keysOf m := by
  rcases h : lookupT m t with _ | r
  · simp only [Option.isSome_none, Bool.false_eq_true, false_iff]
    exact lookupT_eq_none.mp h
  · simp only [Option.isSome_some, true_iff]
    by_contra hmem
    rw [← lookupT_eq_none, h] at hmem
    cases hmem

theorem keysOf_mapOf (rs : List Rule) : keysOf (mapOf rs) = tagsOf rs := by
  simp [keysOf, mapOf, tagsOf]

theorem keysOf_append (m m' : List (String × Rule)) :
    keysOf (m ++ m') = keysOf m ++ keysOf m' := by
  simp [keysOf]

/-! ### Lemmas about buildMap -/

theorem buildMap_ok_aux (rs : List Rule) (acc : List (String × Rule))
    (h : (keysOf acc ++ tagsOf rs).Nodup) :
    buildMap rs acc = .ok (acc ++ mapOf rs) := by
  induction rs generalizing acc with
  | nil => simp [buildMap, mapOf]
  | cons r rest ih =>
    have h' : (keysOf acc ++ r.tag :: tagsOf rest).Nodup := by
      simpa [tagsOf] using h
    have hd := h'
    rw [List.nodup_append] at hd
    have hnotin : r.tag ∉ keysOf acc :=
      fun hmem => hd.2.2 hmem (List.mem_cons_self _ _)
    have hlk : lookupT acc r.tag = none := lookupT_eq_none.mpr hnotin
    have hrec : (keysOf (acc ++ [(r.tag, r)]) ++ tagsOf rest).Nodup := by
      rw [keysOf_append]
      have hk1 : keysOf [(r.tag, r)] = [r.tag] := rfl
      rw [hk1, List.append_assoc]
      simpa using h'
    calc buildMap (r :: rest) acc = buildMap rest (acc ++ [(r.tag, r)]) := by
          simp [buildMap, hlk]
      _ = .ok ((acc ++ [(r.tag, r)]) ++ mapOf rest) := ih _ hrec
      _ = .ok (acc ++ mapOf (r :: rest)) := by simp [mapOf]

theorem buildMap_ok (rs : List Rule) (h : (tagsOf rs).Nodup) :
    buildMap rs [] = .ok (mapOf rs) := by
  have := buildMap_ok_aux rs [] (by simpa [keysOf] using h)
  simpa using this

theorem buildMap_err_shape (rs : List Rule) (acc : List (String × Rule)) (e : TableError)
    (h : buildMap rs acc = .error e) : ∃ t, e = .MultipleDef t := by
  induction rs generalizing acc with
  | nil => simp [buildMap] at h
  | cons r rest ih =>
    rw [buildMap] at h
    rcases hlk : lookupT acc r.tag with _ | r'
    · rw [hlk] at h
      exact ih _ h
    · rw [hlk] at h
      simp at h
      exact ⟨r.tag, h.symm⟩

/-! ### Lemmas about follow -/

theorem follow_append (m : List (String × Rule)) (a : String) (d d' : List Bool) :
    follow m a (d ++ d') = (follow m a d).bind (fun t => follow m t d') := by
  induction d generalizing a with
  | nil => simp [follow]
  | cons b bs ih =>
    rw [List.cons_append, follow, follow]
    rcases hlk : lookupT m a with _ | r
    · simp
    · simp only []
      by_cases hend : (if b then r.onMatchNext else r.noMatchNext) = "end"
      · simp [hend]
      · simp [hend, ih]

theorem follow_nil (m : List (String × Rule)) (a : String) : follow m a [] = some a := rfl

theorem follow_cons {m : List (String × Rule)} {a t : String} {b : Bool} {bs : List Bool}
    (h : follow m a (b :: bs) = some t) :
    ∃ r, lookupT m a = some r ∧
      (if b then r.onMatchNext else r.noMatchNext) ≠ "end" ∧
      follow m (if b then r.onMatchNext else r.noMatchNext) bs = some t := by
  rw [follow] at h
  rcases hlk : lookupT m a with _ | r
  · rw [hlk] at h; cases h
  · rw [hlk] at h
    simp only [] at h
    by_cases hend : (if b then r.onMatchNext else r.noMatchNext) = "end"
    · rw [if_pos hend] at h; cases h
    · rw [if_neg hend] at h
      exact ⟨r, rfl, hend, h⟩

theorem follow_cons_intro {m : List (String × Rule)} {a t : String} {b : Bool} {bs : List Bool}
    {r : Rule} (hlk : lookupT m a = some r)
    (hend : (if b then r.onMatchNext else r.noMatchNext) ≠ "end")
    (h : follow m (if b then r.onMatchNext else r.noMatchNext) bs = some t) :
    follow m a (b :: bs) = some t := by
  rw [follow, hlk]
  simp only []
  rw [if_neg hend]
  exact h

/-! ### Structural lemmas about traverse -/

theorem traverse_ok_inv {m : List (String × Rule)} {fuel : Nat} {l u l' u' : List String}
    {tag : String} (h : traverse m (fuel + 1) l u tag = .ok l' u') :
    ∃ r l2 u2 u3, lookupT m tag = some r ∧ tag ∉ l ∧
      (if r.onMatchNext = "end" then TRes.ok (tag :: l) u
       else traverse m fuel (tag :: l) u r.onMatchNext) = .ok l2 u2 ∧
      (if r.noMatchNext = "end" then TRes.ok l2 u2
       else traverse m fuel l2 u2 r.noMatchNext) = .ok l' u3 ∧
      u' = u3 ++ r.usedUpstreams := by
  rw [traverse] at h
  rcases hlk : lookupT m tag with _ | r
  · rw [hlk] at h; cases h
  · rw [hlk] at h
    simp only [] at h
    by_cases htl : tag ∈ l
    · rw [if_pos htl] at h; cases h
    · rw [if_neg htl] at h
      rcases h1 : (if r.onMatchNext = "end" then TRes.ok (tag :: l) u
                   else traverse m fuel (tag :: l) u r.onMatchNext) with _ | e | ⟨l2, u2⟩
      · rw [h1] at h; cases h
      · rw [h1] at h; cases h
      · rw [h1] at h
        simp only [] at h
        rcases h2 : (if r.noMatchNext = "end" then TRes.ok l2 u2
                     else traverse m fuel l2 u2 r.noMatchNext) with _ | e | ⟨l3, u3⟩
        · rw [h2] at h; cases h
        · rw [h2] at h; cases h
        · rw [h2] at h
          injection h with h3 h4
          subst h3
          exact ⟨r, l2, u2, u3, rfl, htl, h1, h2, h4.symm⟩

theorem traverse_ok_intro {m : List (String × Rule)} {fuel : Nat} {l u l2 u2 l3 u3 : List String}
    {tag : String} {r : Rule} (hlk : lookupT m tag = some r) (htl : tag ∉ l)
    (h1 : (if r.onMatchNext = "end" then TRes.ok (tag :: l) u
           else traverse m fuel (tag :: l) u r.onMatchNext) = .ok l2 u2)
    (h2 : (if r.noMatchNext = "end" then TRes.ok l2 u2
           else traverse m fuel l2 u2 r.noMatchNext) = .ok l3 u3) :
    traverse m (fuel + 1) l u tag = .ok l3 (u3 ++ r.usedUpstreams) := by
  rw [traverse, hlk]
  simp only []
  rw [if_neg htl, h1]
  simp only []
  rw [h2]

theorem traverse_err_inv {m : List (String × Rule)} {fuel : Nat} {l u : List String}
    {tag : String} {e : TableError} (h : traverse m (fuel + 1) l u tag = .err e) :
    (lookupT m tag = none ∧ e = .UndefinedTag tag) ∨
    ((lookupT m tag).isSome = true ∧ tag ∈ l ∧ e = .RuleRecursion tag) ∨
    (∃ r, lookupT m tag = some r ∧ tag ∉ l ∧
      ((r.onMatchNext ≠ "end" ∧ traverse m fuel (tag :: l) u r.onMatchNext = .err e) ∨
       (∃ l2 u2,
         (if r.onMatchNext = "end" then TRes.ok (tag :: l) u
          else traverse m fuel (tag :: l) u r.onMatchNext) = .ok l2 u2 ∧
         r.noMatchNext ≠ "end" ∧ traverse m fuel l2 u2 r.noMatchNext = .err e))) := by
  rw [traverse] at h
  rcases hlk : lookupT m tag with _ | r
  · rw [hlk] at h
    injection h with h'
    exact Or.inl ⟨rfl, h'.symm⟩
  · rw [hlk] at h
    simp only [] at h
    by_cases htl : tag ∈ l
    · rw [if_pos htl] at h
      injection h with h'
      exact Or.inr (Or.inl ⟨by simp, htl, h'.symm⟩)
    · rw [if_neg htl] at h
      refine Or.inr (Or.inr ⟨r, rfl, htl, ?_⟩)
      rcases h1 : (if r.onMatchNext = "end" then TRes.ok (tag :: l) u
                   else traverse m fuel (tag :: l) u r.onMatchNext) with _ | e1 | ⟨l2, u2⟩
      · rw [h1] at h; cases h
      · rw [h1] at h
        injection h with h'
        subst h'
        by_cases hoe : r.onMatchNext = "end"
        · rw [if_pos hoe] at h1; cases h1
        · rw [if_neg hoe] at h1
          exact Or.inl ⟨hoe, h1⟩
      · rw [h1] at h
        simp only [] at h
        rcases h2 : (if r.noMatchNext = "end" then TRes.ok l2 u2
                     else traverse m fuel l2 u2 r.noMatchNext) with _ | e2 | ⟨l3, u3⟩
        · rw [h2] at h; cases h
        · rw [h2] at h
          injection h with h'
          subst h'
          by_cases hne : r.noMatchNext = "end"
          · rw [if_pos hne] at h2; cases h2
          · rw [if_neg hne] at h2
            exact Or.inr ⟨l2, u2, rfl, hne, h2⟩
        · rw [h2] at h; cases h

theorem traverse_out_inv {m : List (String × Rule)} {fuel : Nat} {l u : List String}
    {tag : String} (h : traverse m (fuel + 1) l u tag = .out) :
    ∃ r, lookupT m tag = some r ∧ tag ∉ l ∧
      ((r.onMatchNext ≠ "end" ∧ traverse m fuel (tag :: l) u r.onMatchNext = .out) ∨
       (∃ l2 u2,
         (if r.onMatchNext = "end" then TRes.ok (tag :: l) u
          else traverse m fuel (tag :: l) u r.onMatchNext) = .ok l2 u2 ∧
         r.noMatchNext ≠ "end" ∧ traverse m fuel l2 u2 r.noMatchNext = .out)) := by
  rw [traverse] at h
  rcases hlk : lookupT m tag with _ | r
  · rw [hlk] at h; cases h
  · rw [hlk] at h
    simp only [] at h
    by_cases htl : tag ∈ l
    · rw [if_pos htl] at h; cases h
    · rw [if_neg htl] at h
      refine ⟨r, rfl, htl, ?_⟩
      rcases h1 : (if r.onMatchNext = "end" then TRes.ok (tag :: l) u
                   else traverse m fuel (tag :: l) u r.onMatchNext) with _ | e1 | ⟨l2, u2⟩
      · by_cases hoe : r.onMatchNext = "end"
        · rw [if_pos hoe] at h1; cases h1
        · rw [if_neg hoe] at h1
          exact Or.inl ⟨hoe, h1⟩
      · rw [h1] at h; cases h
      · rw [h1] at h
        simp only [] at h
        rcases h2 : (if r.noMatchNext = "end" then TRes.ok l2 u2
                     else traverse m fuel l2 u2 r.noMatchNext) with _ | e2 | ⟨l3, u3⟩
        · by_cases hne : r.noMatchNext = "end"
          · rw [if_pos hne] at h2; cases h2
          · rw [if_neg hne] at h2
            exact Or.inr ⟨l2, u2, rfl, hne, h2⟩
        · rw [h2] at h; cases h
        · rw [h2] at h; cases h

theorem branch_ok_cases {m : List (String × Rule)} {fuel : Nat} {l u l2 u2 : List String}
    {nxt : String}
    (h : (if nxt = "end" then TRes.ok l u else traverse m fuel l u nxt) = .ok l2 u2) :
    (l2 = l ∧ u2 = u) ∨ (nxt ≠ "end" ∧ traverse m fuel l u nxt = .ok l2 u2) := by
  by_cases he : nxt = "end"
  · rw [if_pos he] at h
    injection h with a b
    exact Or.inl ⟨a.symm, b.symm⟩
  · rw [if_neg he] at h
    exact Or.inr ⟨he, h⟩

theorem traverse_ok_shape {m : List (String × Rule)} {fuel : Nat} :
    ∀ {l u l' u' : List String} {tag : String},
      traverse m fuel l u tag = .ok l' u' → ∃ ext, l' = ext ++ l := by
  induction fuel with
  | zero =>
    intro l u l' u' tag h
    rw [traverse] at h
    cases h
  | succ fuel ih =>
    intro l u l' u' tag h
    obtain ⟨r, l2, u2, u3, hlk, htl, h1, h2, hu⟩ := traverse_ok_inv h
    have hext1 : ∃ e1, l2 = e1 ++ (tag :: l) := by
      rcases branch_ok_cases h1 with ⟨he, _⟩ | ⟨_, ht⟩
      · exact ⟨[], by simp [he]⟩
      · exact ih ht
    have hext2 : ∃ e2, l' = e2 ++ l2 := by
      rcases branch_ok_cases h2 with ⟨he, _⟩ | ⟨_, ht⟩
      · exact ⟨[], by simp [he]⟩
      · exact ih ht
    obtain ⟨e1, he1⟩ := hext1
    obtain ⟨e2, he2⟩ := hext2
    refine ⟨e2 ++ e1 ++ [tag], ?_⟩
    rw [he2, he1]
    simp

theorem branch_ok_sub {m : List (String × Rule)} {fuel : Nat} {l u l2 u2 : List String}
    {nxt : String}
    (h : (if nxt = "end" then TRes.ok l u else traverse m fuel l u nxt) = .ok l2 u2) :
    ∃ ext, l2 = ext ++ l := by
  rcases branch_ok_cases h with ⟨he, _⟩ | ⟨_, ht⟩
  · exact ⟨[], by simp [he]⟩
  · exact traverse_ok_shape ht

theorem traverse_ok_nodup {m : List (String × Rule)} {fuel : Nat} :
    ∀ {l u l' u' : List String} {tag : String},
      l.Nodup → (∀ x ∈ l, x ∈ keysOf m) → traverse m fuel l u tag = .ok l' u' →
      l'.Nodup ∧ (∀ x ∈ l', x ∈ keysOf m) := by
  induction fuel with
  | zero =>
    intro l u l' u' tag _ _ h
    rw [traverse] at h
    cases h
  | succ fuel ih =>
    intro l u l' u' tag hnd hkeys h
    obtain ⟨r, l2, u2, u3, hlk, htl, h1, h2, hu⟩ := traverse_ok_inv h
    have htagkey : tag ∈ keysOf m := lookupT_isSome.mp (by rw [hlk]; rfl)
    have hnd1 : (tag :: l).Nodup := List.nodup_cons.mpr ⟨htl, hnd⟩
    have hkeys1 : ∀ x ∈ tag :: l, x ∈ keysOf m := by
      intro x hx
      rcases List.mem_cons.mp hx with hx | hx
      · exact hx ▸ htagkey
      · exact hkeys x hx
    have step1 : l2.Nodup ∧ ∀ x ∈ l2, x ∈ keysOf m := by
      rcases branch_ok_cases h1 with ⟨he, _⟩ | ⟨_, ht⟩
      · exact he ▸ ⟨hnd1, hkeys1⟩
      · exact ih hnd1 hkeys1 ht
    rcases branch_ok_cases h2 with ⟨he, _⟩ | ⟨_, ht⟩
    · exact he ▸ step1
    · exact ih step1.1 step1.2 ht

theorem traverse_ne_out {m : List (String × Rule)} {fuel : Nat} :
    ∀ {l u : List String} {tag : String},
      l.Nodup → (∀ x ∈ l, x ∈ keysOf m) → m.length < l.length + fuel →
      traverse m fuel l u tag ≠ .out := by
  induction fuel with
  | zero =>
    intro l u tag hnd hkeys hlen
    exfalso
    have hsub : l.length ≤ (keysOf m).length :=
      (List.Nodup.subperm hnd (fun a ha => hkeys a ha)).length_le
    have hkl : (keysOf m).length = m.length := by simp [keysOf]
    omega
  | succ fuel ih =>
    intro l u tag hnd hkeys hlen h
    obtain ⟨r, hlk, htl, hbr⟩ := traverse_out_inv h
    have htagkey : tag ∈ keysOf m := lookupT_isSome.mp (by rw [hlk]; rfl)
    have hnd1 : (tag :: l).Nodup := List.nodup_cons.mpr ⟨htl, hnd⟩
    have hkeys1 : ∀ x ∈ tag :: l, x ∈ keysOf m := by
      intro x hx
      rcases List.mem_cons.mp hx with hx | hx
      · exact hx ▸ htagkey
      · exact hkeys x hx
    rcases hbr with ⟨_, h'⟩ | ⟨l2, u2, h1, _, h'⟩
    · exact ih hnd1 hkeys1 (by simp only [List.length_cons]; omega) h'
    · have hsub : ∃ ext, l2 = ext ++ (tag :: l) := branch_ok_sub h1
      obtain ⟨ext, hext⟩ := hsub
      have hl2len : l.length + 1 ≤ l2.length := by
        rw [hext]
        simp only [List.length_append, List.length_cons]
        omega
      have hnd2 : l2.Nodup ∧ ∀ x ∈ l2, x ∈ keysOf m := by
        rcases branch_ok_cases h1 with ⟨he, _⟩ | ⟨_, ht⟩
        · exact he ▸ ⟨hnd1, hkeys1⟩
        · exact traverse_ok_nodup hnd1 hkeys1 ht
      exact ih hnd2.1 hnd2.2 (by omega) h'

theorem exists_follow_iff {m : List (String × Rule)} {tag x : String} :
    (∃ d, follow m tag d = some x) ↔
      x = tag ∨ (∃ d, follow m tag (true :: d) = some x) ∨
        (∃ d, follow m tag (false :: d) = some x) := by
  constructor
  · rintro ⟨d, hd⟩
    cases d with
    | nil =>
      injection hd with hd
      exact Or.inl hd.symm
    | cons b bs =>
      cases b
      · exact Or.inr (Or.inr ⟨bs, hd⟩)
      · exact Or.inr (Or.inl ⟨bs, hd⟩)
  · rintro (rfl | ⟨d, hd⟩ | ⟨d, hd⟩)
    · exact ⟨[], rfl⟩
    · exact ⟨true :: d, hd⟩
    · exact ⟨false :: d, hd⟩

theorem traverse_ok_reach {m : List (String × Rule)} {fuel : Nat} :
    ∀ {l u l' u' : List String} {tag : String},
      traverse m fuel l u tag = .ok l' u' →
      ∀ d t, follow m tag d = some t → t ∉ l ∧ t ∈ l' := by
  induction fuel with
  | zero =>
    intro l u l' u' tag h
    rw [traverse] at h
    cases h
  | succ fuel ih =>
    intro l u l' u' tag h d t hf
    obtain ⟨r, l2, u2, u3, hlk, htl, h1, h2, hu⟩ := traverse_ok_inv h
    obtain ⟨e1, he1⟩ : ∃ ext, l2 = ext ++ (tag :: l) := branch_ok_sub h1
    obtain ⟨e2, he2⟩ : ∃ ext, l' = ext ++ l2 := branch_ok_sub h2
    cases d with
    | nil =>
      injection hf with hf
      subst hf
      refine ⟨htl, ?_⟩
      rw [he2, he1]
      simp
    | cons b bs =>
      obtain ⟨r', hlk', hend, hf'⟩ := follow_cons hf
      rw [hlk] at hlk'
      injection hlk' with hr
      subst hr
      cases b with
      | true =>
        have hoe : r.onMatchNext ≠ "end" := by simpa using hend
        rw [if_neg hoe] at h1
        have hf'' : follow m r.onMatchNext bs = some t := by simpa using hf'
        obtain ⟨ht1, ht2⟩ := ih h1 bs t hf''
        refine ⟨fun hmem => ht1 (by simp [hmem]), ?_⟩
        rw [he2]
        simp [ht2]
      | false =>
        have hne : r.noMatchNext ≠ "end" := by simpa using hend
        rw [if_neg hne] at h2
        have hf'' : follow m r.noMatchNext bs = some t := by simpa using hf'
        obtain ⟨ht1, ht2⟩ := ih h2 bs t hf''
        refine ⟨fun hmem => ht1 ?_, ht2⟩
        rw [he1]
        simp [hmem]

theorem traverse_no_multipleDef {m : List (String × Rule)} {fuel : Nat} :
    ∀ {l u : List String} {tag t : String},
      traverse m fuel l u tag ≠ .err (.MultipleDef t) := by
  induction fuel with
  | zero =>
    intro l u tag t h
    rw [traverse] at h
    cases h
  | succ fuel ih =>
    intro l u tag t h
    rcases traverse_err_inv h with ⟨_, he⟩ | ⟨_, _, he⟩ | ⟨r, _, _, hbr⟩
    · cases he
    · cases he
    · rcases hbr with ⟨_, h'⟩ | ⟨l2, u2, _, _, h'⟩
      · exact ih h'
      · exact ih h'

theorem traverse_no_undefined {m : List (String × Rule)} {fuel : Nat} :
    ∀ {l u : List String} {tag s : String},
      (∀ t d, follow m tag d = some t → t ∈ keysOf m) →
      traverse m fuel l u tag ≠ .err (.UndefinedTag s) := by
  induction fuel with
  | zero =>
    intro l u tag s _ h
    rw [traverse] at h
    cases h
  | succ fuel ih =>
    intro l u tag s hcl h
    rcases traverse_err_inv h with ⟨hnone, _⟩ | ⟨_, _, he⟩ | ⟨r, hlk, htl, hbr⟩
    · exact (lookupT_eq_none.mp hnone) (hcl tag [] rfl)
    · cases he
    · rcases hbr with ⟨hoe, h'⟩ | ⟨l2, u2, _, hne, h'⟩
      · refine ih (fun t d hf => ?_) h'
        exact hcl t (true :: d) (follow_cons_intro hlk (by simpa using hoe) (by simpa using hf))
      · refine ih (fun t d hf => ?_) h'
        exact hcl t (false :: d) (follow_cons_intro hlk (by simpa using hne) (by simpa using hf))

theorem traverse_undefined_sound {m : List (String × Rule)} {fuel : Nat} :
    ∀ {l u : List String} {tag t : String}, tag ≠ "end" →
      traverse m fuel l u tag = .err (.UndefinedTag t) →
      lookupT m t = none ∧ t ≠ "end" ∧ ∃ d, follow m tag d = some t := by
  induction fuel with
  | zero =>
    intro l u tag t _ h
    rw [traverse] at h
    cases h
  | succ fuel ih =>
    intro l u tag t htag h
    rcases traverse_err_inv h with ⟨hnone, he⟩ | ⟨_, _, he⟩ | ⟨r, hlk, htl, hbr⟩
    · injection he with he
      subst he
      exact ⟨hnone, htag, [], rfl⟩
    · cases he
    · rcases hbr with ⟨hoe, h'⟩ | ⟨l2, u2, _, hne, h'⟩
      · obtain ⟨ha, hb, d, hd⟩ := ih hoe h'
        exact ⟨ha, hb, true :: d,
          follow_cons_intro hlk (by simpa using hoe) (by simpa using hd)⟩
      · obtain ⟨ha, hb, d, hd⟩ := ih hne h'
        exact ⟨ha, hb, false :: d,
          follow_cons_intro hlk (by simpa using hne) (by simpa using hd)⟩

theorem traverse_ok_unique {m : List (String × Rule)} {fuel : Nat} :
    ∀ {l u l' u' : List String} {tag : String},
      traverse m fuel l u tag = .ok l' u' →
      ∀ d1 d2 t, follow m tag d1 = some t → follow m tag d2 = some t → d1 = d2 := by
  induction fuel with
  | zero =>
    intro l u l' u' tag h
    rw [traverse] at h
    cases h
  | succ fuel ih =>
    intro l u l' u' tag h d1 d2 t hf1 hf2
    obtain ⟨r, l2, u2, u3, hlk, htl, h1, h2, hu⟩ := traverse_ok_inv h
    obtain ⟨e1, he1⟩ : ∃ ext, l2 = ext ++ (tag :: l) := branch_ok_sub h1
    cases d1 with
    | nil =>
      injection hf1 with hf1
      subst hf1
      cases d2 with
      | nil => rfl
      | cons b bs =>
        exfalso
        obtain ⟨r', hlk', hend, hf'⟩ := follow_cons hf2
        rw [hlk] at hlk'
        injection hlk' with hr
        subst hr
        cases b with
        | true =>
          have hoe : r.onMatchNext ≠ "end" := by simpa using hend
          rw [if_neg hoe] at h1
          exact (traverse_ok_reach h1 bs tag (by simpa using hf')).1 (by simp)
        | false =>
          have hne : r.noMatchNext ≠ "end" := by simpa using hend
          rw [if_neg hne] at h2
          have : tag ∉ l2 := (traverse_ok_reach h2 bs tag (by simpa using hf')).1
          exact this (by rw [he1]; simp)
    | cons b1 bs1 =>
      cases d2 with
      | nil =>
        exfalso
        injection hf2 with hf2
        subst hf2
        obtain ⟨r', hlk', hend, hf'⟩ := follow_cons hf1
        rw [hlk] at hlk'
        injection hlk' with hr
        subst hr
        cases b1 with
        | true =>
          have hoe : r.onMatchNext ≠ "end" := by simpa using hend
          rw [if_neg hoe] at h1
          exact (traverse_ok_reach h1 bs1 tag (by simpa using hf')).1 (by simp)
        | false =>
          have hne : r.noMatchNext ≠ "end" := by simpa using hend
          rw [if_neg hne] at h2
          have : tag ∉ l2 := (traverse_ok_reach h2 bs1 tag (by simpa using hf')).1
          exact this (by rw [he1]; simp)
      | cons b2 bs2 =>
        obtain ⟨ra, hlka, henda, hfa⟩ := follow_cons hf1
        obtain ⟨rb, hlkb, hendb, hfb⟩ := follow_cons hf2
        rw [hlk] at hlka hlkb
        injection hlka with hra
        injection hlkb with hrb
        subst hra
        subst hrb
        cases b1 with
        | true =>
          cases b2 with
          | true =>
            have hoe : r.onMatchNext ≠ "end" := by simpa using henda
            rw [if_neg hoe] at h1
            have := ih h1 bs1 bs2 t (by simpa using hfa) (by simpa using hfb)
            rw [this]
          | false =>
            exfalso
            have hoe : r.onMatchNext ≠ "end" := by simpa using henda
            have hne : r.noMatchNext ≠ "end" := by simpa using hendb
            rw [if_neg hoe] at h1
            rw [if_neg hne] at h2
            have hin : t ∈ l2 := (traverse_ok_reach h1 bs1 t (by simpa using hfa)).2
            have hout : t ∉ l2 := (traverse_ok_reach h2 bs2 t (by simpa using hfb)).1
            exact hout hin
        | false =>
          cases b2 with
          | true =>
            exfalso
            have hoe : r.onMatchNext ≠ "end" := by simpa using hendb
            have hne : r.noMatchNext ≠ "end" := by simpa using henda
            rw [if_neg hoe] at h1
            rw [if_neg hne] at h2
            have hin : t ∈ l2 := (traverse_ok_reach h1 bs2 t (by simpa using hfb)).2
            have hout : t ∉ l2 := (traverse_ok_reach h2 bs1 t (by simpa using hfa)).1
            exact hout hin
          | false =>
            have hne : r.noMatchNext ≠ "end" := by simpa using henda
            rw [if_neg hne] at h2
            have := ih h2 bs1 bs2 t (by simpa using hfa) (by simpa using hfb)
            rw [this]

theorem follow_cons_branch {m : List (String × Rule)} {tag t : String} {r : Rule} {b : Bool}
    {d : List Bool} (hlk : lookupT m tag = some r) (hf : follow m tag (b :: d) = some t) :
    (if b then r.onMatchNext else r.noMatchNext) ≠ "end" ∧
      follow m (if b then r.onMatchNext else r.noMatchNext) d = some t := by
  obtain ⟨r', hlk', hend, hf'⟩ := follow_cons hf
  rw [hlk] at hlk'
  injection hlk' with hr
  subst hr
  exact ⟨hend, hf'⟩

theorem traverse_ok_construct {m : List (String × Rule)} {fuel : Nat} :
    ∀ {l u : List String} {tag : String},
      (∀ t d, follow m tag d = some t → t ∈ keysOf m) →
      (∀ t d, follow m tag d = some t → t ∉ l) →
      (∀ t d1 d2, follow m tag d1 = some t → follow m tag d2 = some t → d1 = d2) →
      l.Nodup → (∀ x ∈ l, x ∈ keysOf m) → m.length < l.length + fuel →
      ∃ l' u', traverse m fuel l u tag = .ok l' u' ∧
        (∀ x, x ∈ l' ↔ (∃ d, follow m tag d = some x) ∨ x ∈ l) ∧
        (∀ x, x ∈ u' ↔ x ∈ u ∨ ∃ t r d, follow m tag d = some t ∧
          lookupT m t = some r ∧ x ∈ r.usedUpstreams) := by
  induction fuel with
  | zero =>
    intro l u tag hcl hdis huniq hnd hkeys hlen
    exfalso
    have hsub : l.length ≤ (keysOf m).length :=
      (List.Nodup.subperm hnd (fun a ha => hkeys a ha)).length_le
    have hkl : (keysOf m).length = m.length := by simp [keysOf]
    omega
  | succ fuel ih =>
    intro l u tag hcl hdis huniq hnd hkeys hlen
    have htagkey : tag ∈ keysOf m := hcl tag [] rfl
    obtain ⟨r, hlk⟩ : ∃ r, lookupT m tag = some r := by
      rcases hr : lookupT m tag with _ | r
      · exact absurd htagkey (lookupT_eq_none.mp hr)
      · exact ⟨r, rfl⟩
    have htl : tag ∉ l := hdis tag [] rfl
    have hnd1 : (tag :: l).Nodup := List.nodup_cons.mpr ⟨htl, hnd⟩
    have hkeys1 : ∀ x ∈ tag :: l, x ∈ keysOf m := by
      intro x hx
      rcases List.mem_cons.mp hx with hx | hx
      · exact hx ▸ htagkey
      · exact hkeys x hx
    have step1 : ∃ l2 u2,
        (if r.onMatchNext = "end" then TRes.ok (tag :: l) u
         else traverse m fuel (tag :: l) u r.onMatchNext) = .ok l2 u2 ∧
        (∀ x, x ∈ l2 ↔ (∃ d, follow m tag (true :: d) = some x) ∨ x ∈ tag :: l) ∧
        (∀ x, x ∈ u2 ↔ x ∈ u ∨ ∃ t r' d, follow m tag (true :: d) = some t ∧
          lookupT m t = some r' ∧ x ∈ r'.usedUpstreams) := by
      by_cases hoe : r.onMatchNext = "end"
      · refine ⟨tag :: l, u, by rw [if_pos hoe], ?_, ?_⟩
        · intro x
          constructor
          · exact fun hx => Or.inr hx
          · rintro (⟨d, hd⟩ | hx)
            · exact absurd hoe (by simpa using (follow_cons_branch hlk hd).1)
            · exact hx
        · intro x
          constructor
          · exact fun hx => Or.inl hx
          · rintro (hx | ⟨t, r', d, hd, _, _⟩)
            · exact hx
            · exact absurd hoe (by simpa using (follow_cons_branch hlk hd).1)
      · have hcl' : ∀ t d, follow m r.onMatchNext d = some t → t ∈ keysOf m := fun t d hf =>
          hcl t (true :: d) (follow_cons_intro hlk (by simpa using hoe) (by simpa using hf))
        have hdis' : ∀ t d, follow m r.onMatchNext d = some t → t ∉ tag :: l := by
          intro t d hf
          have hft : follow m tag (true :: d) = some t :=
            follow_cons_intro hlk (by simpa using hoe) (by simpa using hf)
          intro hmem
          rcases List.mem_cons.mp hmem with hx | hx
          · subst hx
            have := huniq t [] (true :: d) rfl hft
            simp at this
          · exact hdis t (true :: d) hft hx
        have huniq' : ∀ t d1 d2, follow m r.onMatchNext d1 = some t →
            follow m r.onMatchNext d2 = some t → d1 = d2 := by
          intro t d1 d2 hf1 hf2
          have := huniq t (true :: d1) (true :: d2)
            (follow_cons_intro hlk (by simpa using hoe) (by simpa using hf1))
            (follow_cons_intro hlk (by simpa using hoe) (by simpa using hf2))
          injection this
        have hlen' : m.length < (tag :: l).length + fuel := by
          simp only [List.length_cons]
          omega
        obtain ⟨l2, u2, heq, hlc, huc⟩ := ih hcl' hdis' huniq' hnd1 hkeys1 hlen'
        refine ⟨l2, u2, by rw [if_neg hoe]; exact heq, ?_, ?_⟩
        · intro x
          rw [hlc x]
          constructor
          · rintro (⟨d, hd⟩ | hx)
            · exact Or.inl ⟨d, follow_cons_intro hlk (by simpa using hoe) (by simpa using hd)⟩
            · exact Or.inr hx
          · rintro (⟨d, hd⟩ | hx)
            · exact Or.inl ⟨d, by simpa using (follow_cons_branch hlk hd).2⟩
            · exact Or.inr hx
        · intro x
          rw [huc x]
          constructor
          · rintro (hx | ⟨t, r', d, hd, hl', hm⟩)
            · exact Or.inl hx
            · exact Or.inr ⟨t, r', d,
                follow_cons_intro hlk (by simpa using hoe) (by simpa using hd), hl', hm⟩
          · rintro (hx | ⟨t, r', d, hd, hl', hm⟩)
            · exact Or.inl hx
            · exact Or.inr ⟨t, r', d, by simpa using (follow_cons_branch hlk hd).2, hl', hm⟩
    obtain ⟨l2, u2, heq1, hlc2, huc2⟩ := step1
    have hnd2 : l2.Nodup ∧ ∀ x ∈ l2, x ∈ keysOf m := by
      rcases branch_ok_cases heq1 with ⟨he, _⟩ | ⟨_, ht⟩
      · exact he ▸ ⟨hnd1, hkeys1⟩
      · exact traverse_ok_nodup hnd1 hkeys1 ht
    have hlen2 : m.length < l2.length + fuel := by
      obtain ⟨ext, hext⟩ := branch_ok_sub heq1
      have : (tag :: l).length ≤ l2.length := by
        rw [hext]
        simp only [List.length_append]
        omega
      simp only [List.length_cons] at this
      omega
    have step2 : ∃ l3 u3,
        (if r.noMatchNext = "end" then TRes.ok l2 u2
         else traverse m fuel l2 u2 r.noMatchNext) = .ok l3 u3 ∧
        (∀ x, x ∈ l3 ↔ (∃ d, follow m tag (false :: d) = some x) ∨ x ∈ l2) ∧
        (∀ x, x ∈ u3 ↔ x ∈ u2 ∨ ∃ t r' d, follow m tag (false :: d) = some t ∧
          lookupT m t = some r' ∧ x ∈ r'.usedUpstreams) := by
      by_cases hne : r.noMatchNext = "end"
      · refine ⟨l2, u2, by rw [if_pos hne], ?_, ?_⟩
        · intro x
          constructor
          · exact fun hx => Or.inr hx
          · rintro (⟨d, hd⟩ | hx)
            · exact absurd hne (by simpa using (follow_cons_branch hlk hd).1)
            · exact hx
        · intro x
          constructor
          · exact fun hx => Or.inl hx
          · rintro (hx | ⟨t, r', d, hd, _, _⟩)
            · exact hx
            · exact absurd hne (by simpa using (follow_cons_branch hlk hd).1)
      · have hcl' : ∀ t d, follow m r.noMatchNext d = some t → t ∈ keysOf m := fun t d hf =>
          hcl t (false :: d) (follow_cons_intro hlk (by simpa using hne) (by simpa using hf))
        have hdis' : ∀ t d, follow m r.noMatchNext d = some t → t ∉ l2 := by
          intro t d hf
          have hft : follow m tag (false :: d) = some t :=
            follow_cons_intro hlk (by simpa using hne) (by simpa using hf)
          intro hmem
          rcases (hlc2 t).mp hmem with ⟨d', hd'⟩ | hx
          · have := huniq t (false :: d) (true :: d') hft hd'
            simp at this
          · rcases List.mem_cons.mp hx with hx | hx
            · subst hx
              have := huniq t [] (false :: d) rfl hft
              simp at this
            · exact hdis t (false :: d) hft hx
        have huniq' : ∀ t d1 d2, follow m r.noMatchNext d1 = some t →
            follow m r.noMatchNext d2 = some t → d1 = d2 := by
          intro t d1 d2 hf1 hf2
          have := huniq t (false :: d1) (false :: d2)
            (follow_cons_intro hlk (by simpa using hne) (by simpa using hf1))
            (follow_cons_intro hlk (by simpa using hne) (by simpa using hf2))
          injection this
        obtain ⟨l3, u3, heq, hlc, huc⟩ := ih hcl' hdis' huniq' hnd2.1 hnd2.2 hlen2
        refine ⟨l3, u3, by rw [if_neg hne]; exact heq, ?_, ?_⟩
        · intro x
          rw [hlc x]
          constructor
          · rintro (⟨d, hd⟩ | hx)
            · exact Or.inl ⟨d, follow_cons_intro hlk (by simpa using hne) (by simpa using hd)⟩
            · exact Or.inr hx
          · rintro (⟨d, hd⟩ | hx)
            · exact Or.inl ⟨d, by simpa using (follow_cons_branch hlk hd).2⟩
            · exact Or.inr hx
        · intro x
          rw [huc x]
          constructor
          · rintro (hx | ⟨t, r', d, hd, hl', hm⟩)
            · exact Or.inl hx
            · exact Or.inr ⟨t, r', d,
                follow_cons_intro hlk (by simpa using hne) (by simpa using hd), hl', hm⟩
          · rintro (hx | ⟨t, r', d, hd, hl', hm⟩)
            · exact Or.inl hx
            · exact Or.inr ⟨t, r', d, by simpa using (follow_cons_branch hlk hd).2, hl', hm⟩
    obtain ⟨l3, u3, heq2, hlc3, huc3⟩ := step2
    refine ⟨l3, u3 ++ r.usedUpstreams, traverse_ok_intro hlk htl heq1 heq2, ?_, ?_⟩
    · intro x
      rw [hlc3 x, hlc2 x, List.mem_cons]
      rw [show (∃ d, follow m tag d = some x) ↔ _ from exists_follow_iff]
      tauto
    · intro x
      rw [List.mem_append, huc3 x, huc2 x]
      constructor
      · rintro (((hx | ⟨t, r', d, hd, hl', hm⟩) | ⟨t, r', d, hd, hl', hm⟩) | hx)
        · exact Or.inl hx
        · exact Or.inr ⟨t, r', true :: d, hd, hl', hm⟩
        · exact Or.inr ⟨t, r', false :: d, hd, hl', hm⟩
        · exact Or.inr ⟨tag, r, [], rfl, hlk, hx⟩
      · rintro (hx | ⟨t, r', d, hd, hl', hm⟩)
        · exact Or.inl (Or.inl (Or.inl hx))
        · cases d with
          | nil =>
            injection hd with hd
            subst hd
            rw [hlk] at hl'
            injection hl' with hl'
            subst hl'
            exact Or.inr hm
          | cons b bs =>
            cases b with
            | true => exact Or.inl (Or.inl (Or.inr ⟨t, r', bs, hd, hl', hm⟩))
            | false => exact Or.inl (Or.inr ⟨t, r', bs, hd, hl', hm⟩)

/-! ### Table.new glue lemmas -/

theorem tableNew_ok_inv {rs : List Rule} {T : Table} (h : Table.new rs = .ok T) :
    ∃ l u, buildMap rs [] = .ok T.rules ∧
      traverse T.rules (T.rules.length + 1) [] [] "start" = .ok l u ∧ T.used = u := by
  rw [Table.new] at h
  rcases hb : buildMap rs [] with e | m
  · rw [hb] at h; cases h
  · rw [hb] at h
    simp only [] at h
    rcases ht : traverse m (m.length + 1) [] [] "start" with _ | e | ⟨l, u⟩
    · rw [ht] at h; cases h
    · rw [ht] at h; cases h
    · rw [ht] at h
      injection h with h
      subst h
      exact ⟨l, u, rfl, ht, rfl⟩

theorem tableNew_ok_intro {rs : List Rule} {m : List (String × Rule)} {l u : List String}
    (hb : buildMap rs [] = .ok m)
    (ht : traverse m (m.length + 1) [] [] "start" = .ok l u) :
    Table.new rs = .ok { rules := m, used := u } := by
  rw [Table.new, hb]
  simp only []
  rw [ht]

theorem tableNew_err_intro {rs : List Rule} {m : List (String × Rule)} {e : TableError}
    (hb : buildMap rs [] = .ok m)
    (ht : traverse m (m.length + 1) [] [] "start" = .err e) :
    Table.new rs = .err e := by
  rw [Table.new, hb]
  simp only []
  rw [ht]

theorem tableNew_errB_intro {rs : List Rule} {e : TableError}
    (hb : buildMap rs [] = .error e) : Table.new rs = .err e := by
  rw [Table.new, hb]

theorem tableNew_err_inv {rs : List Rule} {e : TableError} (h : Table.new rs = .err e) :
    buildMap rs [] = .error e ∨
      ∃ m, buildMap rs [] = .ok m ∧ traverse m (m.length + 1) [] [] "start" = .err e := by
  rw [Table.new] at h
  rcases hb : buildMap rs [] with e' | m
  · rw [hb] at h
    injection h with h
    exact Or.inl (h ▸ rfl)
  · rw [hb] at h
    simp only [] at h
    rcases ht : traverse m (m.length + 1) [] [] "start" with _ | e' | ⟨l, u⟩
    · rw [ht] at h; cases h
    · rw [ht] at h
      injection h with h
      exact Or.inr ⟨m, rfl, h ▸ ht⟩
    · rw [ht] at h; cases h

/-! ### Routing lemmas -/

theorem Rule.route_next {r : Rule} {send : String → Message → Except ActionErr Message}
    {s s' : State} {nxt : String} (h : r.route send s = .ok (s', nxt)) :
    nxt = r.onMatchNext ∨ nxt = r.noMatchNext := by
  rw [Rule.route] at h
  by_cases hm : r.matcher.matches s.query.queries s.resp.answers = true
  · rw [if_pos hm] at h
    rcases ha : r.onMatch.1.act send s with e | s''
    · rw [ha] at h; cases h
    · rw [ha] at h
      injection h with h
      injection h with h1 h2
      exact Or.inl h2.symm
  · rw [if_neg hm] at h
    rcases ha : r.noMatch.1.act send s with e | s''
    · rw [ha] at h; cases h
    · rw [ha] at h
      injection h with h
      injection h with h1 h2
      exact Or.inr h2.symm

theorem follow_one {m : List (String × Rule)} {tag : String} {r : Rule}
    (hlk : lookupT m tag = some r) {b : Bool} {nxt : String}
    (hx : (if b then r.onMatchNext else r.noMatchNext) = nxt) (hnend : nxt ≠ "end") :
    follow m tag [b] = some nxt := by
  rw [follow, hlk]
  simp only []
  rw [hx, if_neg hnend]
  rfl

theorem routeLoop_no_panic {T : Table}
    {send : String → Message → Except ActionErr Message}
    (hcl : ∀ s, (∃ d, follow T.rules "start" d = some s) →
      (lookupT T.rules s).isSome = true) :
    ∀ {fuel : Nat} {st : State} {tag : String},
      (tag = "end" ∨ ∃ d, follow T.rules "start" d = some tag) →
      ∀ x, routeLoop T send fuel st tag ≠ .panicLookup x := by
  intro fuel
  induction fuel with
  | zero =>
    intro st tag _ x h
    rw [routeLoop] at h
    cases h
  | succ fuel ih =>
    intro st tag hreach x h
    rw [routeLoop] at h
    by_cases hend : tag = "end"
    · rw [if_pos hend] at h; cases h
    · rw [if_neg hend] at h
      rcases hreach with hreach | hreach
      · exact hend hreach
      rcases hlk : lookupT T.rules tag with _ | r
      · have := hcl tag hreach
        rw [hlk] at this
        cases this
      · rw [hlk] at h
        simp only [] at h
        rcases hr : r.route send st with e | p
        · rw [hr] at h; cases h
        · obtain ⟨s', nxt⟩ := p
          rw [hr] at h
          refine ih ?_ x h
          by_cases hnend : nxt = "end"
          · exact Or.inl hnend
          · right
            obtain ⟨d, hd⟩ := hreach
            rcases Rule.route_next hr with h1 | h1
            · refine ⟨d ++ [true], ?_⟩
              rw [follow_append, hd]
              show follow T.rules tag [true] = some nxt
              exact follow_one hlk (by simp [h1]) hnend
            · refine ⟨d ++ [false], ?_⟩
              rw [follow_append, hd]
              show follow T.rules tag [false] = some nxt
              exact follow_one hlk (by simp [h1]) hnend

/-! ### Further helper lemmas -/

theorem pathTags_cons {m : List (String × Rule)} {tag : String} {b : Bool} {bs : List Bool}
    {ts : List String} (h : pathTags m tag (b :: bs) = some ts) :
    ∃ r ts', lookupT m tag = some r ∧
      (if b then r.onMatchNext else r.noMatchNext) ≠ "end" ∧
      pathTags m (if b then r.onMatchNext else r.noMatchNext) bs = some ts' ∧
      ts = tag :: ts' := by
  rw [pathTags] at h
  rcases hlk : lookupT m tag with _ | r
  · rw [hlk] at h; cases h
  · rw [hlk] at h
    simp only [] at h
    by_cases hend : (if b then r.onMatchNext else r.noMatchNext) = "end"
    · rw [if_pos hend] at h; cases h
    · rw [if_neg hend] at h
      rcases hp : pathTags m (if b then r.onMatchNext else r.noMatchNext) bs with _ | ts'
      · rw [hp] at h; cases h
      · rw [hp] at h
        injection h with h
        exact ⟨r, ts', rfl, hend, hp, h.symm⟩

theorem traverse_recursion_sound {m : List (String × Rule)} {fuel : Nat} :
    ∀ {l u : List String} {tag t : String},
      traverse m fuel l u tag = .err (.RuleRecursion t) →
      ∃ d, follow m tag d = some t := by
  induction fuel with
  | zero =>
    intro l u tag t h
    rw [traverse] at h
    cases h
  | succ fuel ih =>
    intro l u tag t h
    rcases traverse_err_inv h with ⟨_, he⟩ | ⟨_, _, he⟩ | ⟨r, hlk, htl, hbr⟩
    · cases he
    · injection he with he
      subst he
      exact ⟨[], rfl⟩
    · rcases hbr with ⟨hoe, h'⟩ | ⟨l2, u2, _, hne, h'⟩
      · obtain ⟨d, hd⟩ := ih h'
        exact ⟨true :: d, follow_cons_intro hlk (by simpa using hoe) (by simpa using hd)⟩
      · obtain ⟨d, hd⟩ := ih h'
        exact ⟨false :: d, follow_cons_intro hlk (by simpa using hne) (by simpa using hd)⟩

theorem traverse_ok_end_not_visited {m : List (String × Rule)} {fuel : Nat} :
    ∀ {l u l' u' : List String} {tag : String}, tag ≠ "end" → "end" ∉ l →
      traverse m fuel l u tag = .ok l' u' → "end" ∉ l' := by
  induction fuel with
  | zero =>
    intro l u l' u' tag _ _ h
    rw [traverse] at h
    cases h
  | succ fuel ih =>
    intro l u l' u' tag htag hl h
    obtain ⟨r, l2, u2, u3, hlk, htl, h1, h2, hu⟩ := traverse_ok_inv h
    have hl1 : "end" ∉ tag :: l := by
      intro hmem
      rcases List.mem_cons.mp hmem with hx | hx
      · exact htag hx.symm
      · exact hl hx
    have hl2 : "end" ∉ l2 := by
      rcases branch_ok_cases h1 with ⟨he, _⟩ | ⟨hoe, ht⟩
      · exact he ▸ hl1
      · exact ih (fun hx => hoe hx) hl1 ht
    rcases branch_ok_cases h2 with ⟨he, _⟩ | ⟨hne, ht⟩
    · exact he ▸ hl2
    · exact ih (fun hx => hne hx) hl2 ht

theorem diamondA_follow : ∀ (d : List Bool) (t : String),
    follow (mapOf diamondRules) "a" d = some t → t = "a" := by
  intro d t h
  cases d with
  | nil =>
    injection h with h
    exact h.symm
  | cons b bs =>
    obtain ⟨r, hlk, hend, _⟩ := follow_cons h
    rw [show lookupT (mapOf diamondRules) "a" = some diamondA from rfl] at hlk
    injection hlk with hlk
    subst hlk
    exfalso
    apply hend
    cases b <;> rfl

theorem diamond_follow : ∀ (d : List Bool) (t : String),
    follow (mapOf diamondRules) "start" d = some t → t = "start" ∨ t = "a" := by
  intro d t h
  cases d with
  | nil =>
    injection h with h
    exact Or.inl h.symm
  | cons b bs =>
    obtain ⟨r, hlk, hend, hf⟩ := follow_cons h
    rw [show lookupT (mapOf diamondRules) "start" = some diamondStart from rfl] at hlk
    injection hlk with hlk
    subst hlk
    have hx : (if b then diamondStart.onMatchNext else diamondStart.noMatchNext) = "a" := by
      cases b <;> rfl
    rw [hx] at hf
    exact Or.inr (diamondA_follow bs t hf)

theorem diamondA_path : ∀ (bs : List Bool) (ts : List String),
    pathTags (mapOf diamondRules) "a" bs = some ts → ts = ["a"] := by
  intro bs ts h
  cases bs with
  | nil =>
    injection h with h
    exact h.symm
  | cons b bs' =>
    obtain ⟨r, ts', hlk, hend, _, _⟩ := pathTags_cons h
    rw [show lookupT (mapOf diamondRules) "a" = some diamondA from rfl] at hlk
    injection hlk with hlk
    subst hlk
    exfalso
    apply hend
    cases b <;> rfl

theorem diamond_path : ∀ (d : List Bool) (ts : List String),
    pathTags (mapOf diamondRules) "start" d = some ts → ts.Nodup := by
  intro d ts h
  cases d with
  | nil =>
    injection h with h
    rw [← h]
    exact List.nodup_singleton _
  | cons b bs =>
    obtain ⟨r, ts', hlk, hend, hp, hts⟩ := pathTags_cons h
    rw [show lookupT (mapOf diamondRules) "start" = some diamondStart from rfl] at hlk
    injection hlk with hlk
    subst hlk
    have hx : (if b then diamondStart.onMatchNext else diamondStart.noMatchNext) = "a" := by
      cases b <;> rfl
    rw [hx] at hp
    have := diamondA_path bs ts' hp
    subst this
    rw [hts]
    decide

theorem straight_follow : ∀ (d : List Bool) (t : String),
    follow (mapOf [ruleStraight]) "start" d = some t → t = "start" ∧ d = [] := by
  intro d t h
  cases d with
  | nil =>
    injection h with h
    exact ⟨h.symm, rfl⟩
  | cons b bs =>
    obtain ⟨r, hlk, hend, _⟩ := follow_cons h
    rw [show lookupT (mapOf [ruleStraight]) "start" = some ruleStraight from rfl] at hlk
    injection hlk with hlk
    subst hlk
    exfalso
    apply hend
    cases b <;> rfl

theorem buildMap_first_dup : ∀ (rs : List Rule) (acc : List (String × Rule)) (j : Nat) (r : Rule),
    rs[j]? = some r →
    (keysOf acc ++ tagsOf (rs.take j)).Nodup →
    r.tag ∈ keysOf acc ++ tagsOf (rs.take j) →
    buildMap rs acc = .error (.MultipleDef r.tag) := by
  intro rs
  induction rs with
  | nil =>
    intro acc j r hj
    simp at hj
  | cons x rest ih =>
    intro acc j r hj hnd hmem
    cases j with
    | zero =>
      rw [List.getElem?_cons_zero] at hj
      injection hj with hj
      subst hj
      rw [List.take_zero] at hmem
      have hts : tagsOf ([] : List Rule) = [] := rfl
      rw [hts, List.append_nil] at hmem
      rw [buildMap]
      rcases hlk : lookupT acc x.tag with _ | r'
      · exact absurd hmem (lookupT_eq_none.mp hlk)
      · rfl
    | succ j =>
      rw [List.getElem?_cons_succ] at hj
      have htake : (x :: rest).take (j + 1) = x :: rest.take j := rfl
      rw [htake] at hnd hmem
      have hts : tagsOf (x :: rest.take j) = x.tag :: tagsOf (rest.take j) := rfl
      rw [hts] at hnd hmem
      have hx_notin : x.tag ∉ keysOf acc := by
        have hnd' := hnd
        rw [List.nodup_append] at hnd'
        exact fun hm => hnd'.2.2 hm (List.mem_cons_self _ _)
      rw [buildMap]
      rw [lookupT_eq_none.mpr hx_notin]
      simp only []
      apply ih (acc ++ [(x.tag, x)]) j r hj
      · rw [keysOf_append]
        have hk1 : keysOf [(x.tag, x)] = [x.tag] := rfl
        rw [hk1, List.append_assoc]
        simpa using hnd
      · rw [keysOf_append]
        have hk1 : keysOf [(x.tag, x)] = [x.tag] := rfl
        rw [hk1, List.append_assoc]
        simpa using hmem

theorem domain_newAux_char : ∀ (sources : List (Except Unit String)) (acc : DTrie),
    (Domain.newAux sources acc = .error .IOError ↔ Except.error () ∈ sources) ∧
    (∀ e, Domain.newAux sources acc = .error e → e = .IOError) ∧
    (∀ contents : List String, sources = contents.map Except.ok →
      Domain.newAux sources acc = .ok (contents.foldl DTrie.insertMulti acc)) := by
  intro sources
  induction sources with
  | nil =>
    intro acc
    refine ⟨?_, ?_, ?_⟩
    · simp [Domain.newAux]
    · intro e h
      rw [Domain.newAux] at h
      cases h
    · intro contents hc
      rcases contents with _ | ⟨c, cs⟩
      · simp [Domain.newAux]
      · simp at hc
  | cons src rest ih =>
    intro acc
    rcases src with u | data
    · obtain ⟨⟩ := u
      refine ⟨?_, ?_, ?_⟩
      · simp [Domain.newAux]
      · intro e h
        rw [Domain.newAux] at h
        injection h with h
        exact h.symm
      · intro contents hc
        rcases contents with _ | ⟨c, cs⟩
        · simp at hc
        · rw [List.map_cons] at hc
          injection hc with h1 _
          cases h1
    · refine ⟨?_, ?_, ?_⟩
      · rw [Domain.newAux]
        rw [(ih (acc.insertMulti data)).1]
        simp
      · intro e h
        rw [Domain.newAux] at h
        exact (ih (acc.insertMulti data)).2.1 e h
      · intro contents hc
        rcases contents with _ | ⟨c, cs⟩
        · simp at hc
        · rw [List.map_cons] at hc
          injection hc with h1 h2
          injection h1 with h1
          subst h1
          rw [Domain.newAux, List.foldl_cons]
          exact (ih (acc.insertMulti data)).2.2 cs h2

/-! ### Claim theorems -/

/-- C10: Table::route is not total in its query argument: it
unconditionally takes the first question of the incoming message, so a
message with zero questions panics (modelled as panicNoQuestion) before
any rule is evaluated, for every table, upstream function and fuel. -/
theorem c10_route_panics_on_empty_questions (t : Table) (q : Message)
    (send : String → Message → Except ActionErr Message) (fuel : Nat)
    (h : q.queries = []) : Table.route t q send fuel = .panicNoQuestion := by
  rw [Table.route, h]
  rfl

/-- Witness for C10 at a concrete table, query and fuel. -/
theorem c10_witness :
    Table.route tableStraight { queries := [], answers := [], payload := 0 } sendMock 5
      = .panicNoQuestion :=
  c10_route_panics_on_empty_questions tableStraight
    { queries := [], answers := [], payload := 0 } sendMock 5 rfl

/-- C3: whenever position j holds the first duplicate of the rule list
(all tags before j are pairwise distinct and the j-th tag occurred
earlier), Table::new fails with MultipleDef naming that tag — whatever
the later rules are, and before any traversal, since the map-building
loop aborts at the duplicate. -/
theorem c3_multiple_def (rs : List Rule) (j : Nat) (r : Rule)
    (hj : rs[j]? = some r)
    (hfresh : (tagsOf (rs.take j)).Nodup)
    (hdup : r.tag ∈ tagsOf (rs.take j)) :
    Table.new rs = .err (.MultipleDef r.tag) := by
  have hnd : (keysOf [] ++ tagsOf (rs.take j)).Nodup := by
    have hk : keysOf ([] : List (String × Rule)) = [] := rfl
    rw [hk, List.nil_append]
    exact hfresh
  have hmem : r.tag ∈ keysOf [] ++ tagsOf (rs.take j) := by
    have hk : keysOf ([] : List (String × Rule)) = [] := rfl
    rw [hk, List.nil_append]
    exact hdup
  exact tableNew_errB_intro (buildMap_first_dup rs [] j r hj hnd hmem)

/-- Witness for C3: two rules both tagged start, the second rule being
otherwise well-formed, are rejected with MultipleDef "start". -/
theorem c3_witness : Table.new [ruleStraight, ruleLoop] = .err (.MultipleDef "start") :=
  c3_multiple_def [ruleStraight, ruleLoop] 1 ruleLoop rfl (by decide) (by decide)

/-- C8: the Domain matcher realizes one-way label-boundary suffix
semantics: inserting example.com matches example.com, www.example.com
and a.b.example.com but not notexample.com or example.org, and
inserting a.example.com does not make example.com match. -/
theorem c8_domain_suffix_semantics :
    ((DTrie.empty.insertStr "example.com").matchesStr "example.com" = true) ∧
    ((DTrie.empty.insertStr "example.com").matchesStr "www.example.com" = true) ∧
    ((DTrie.empty.insertStr "example.com").matchesStr "a.b.example.com" = true) ∧
    ((DTrie.empty.insertStr "example.com").matchesStr "notexample.com" = false) ∧
    ((DTrie.empty.insertStr "example.com").matchesStr "example.org" = false) ∧
    ((DTrie.empty.insertStr "a.example.com").matchesStr "example.com" = false) := by
  refine ⟨?_, ?_, ?_, ?_, ?_, ?_⟩ <;> rfl

/-- C9 counterexample: content that is not a domain at all is accepted
by Domain::new (bulk insertion inserts it as an opaque label); the
construction does not fail with Malformatted. -/
theorem c9_counterexample :
    Domain.new [Except.ok "!!!"] = .ok (DTrie.empty.insertMulti "!!!") ∧
    Domain.new [Except.ok "!!!"] ≠ .error .Malformatted := by
  refine ⟨rfl, ?_⟩
  intro h
  rw [show Domain.new [Except.ok "!!!"] = .ok (DTrie.empty.insertMulti "!!!") from rfl] at h
  cases h

/-- C9 amended: Domain::new fails with IOError exactly when some source
read fails, never fails with Malformatted, and on all-readable sources
succeeds with every source bulk-inserted in order. -/
theorem c9_amended_domain_new (sources : List (Except Unit String)) :
    (Domain.new sources = .error .IOError ↔ Except.error () ∈ sources) ∧
    (∀ e, Domain.new sources = .error e → e = .IOError) ∧
    (∀ contents : List String, sources = contents.map Except.ok →
      Domain.new sources = .ok (contents.foldl DTrie.insertMulti DTrie.empty)) :=
  domain_newAux_char sources DTrie.empty

/-- Witness for C9 at concrete sources: one failing read gives IOError,
and two readable sources give the bulk-inserted trie. -/
theorem c9_witness :
    Domain.new [Except.error ()] = .error .IOError ∧
    Domain.new [Except.ok "example.com", Except.ok "foo.org"] =
      .ok ((DTrie.empty.insertMulti "example.com").insertMulti "foo.org") := by
  constructor
  · exact (c9_amended_domain_new [Except.error ()]).1.mpr (by simp)
  · exact (c9_amended_domain_new [Except.ok "example.com", Except.ok "foo.org"]).2.2
      ["example.com", "foo.org"] rfl

/-- C4: on a duplicate-free rule set, (i) if no rule is tagged start,
Table::new fails with UndefinedTag "start"; and (ii) whenever Table::new
fails with UndefinedTag t — which is exactly when the traversal reaches
t — the named tag t really is absent from the rule map, is not the
sentinel "end", and is reachable from "start" along a branch path. -/
theorem c4_undefined_tag (rs : List Rule) (hnd : (tagsOf rs).Nodup) :
    ("start" ∉ tagsOf rs → Table.new rs = .err (.UndefinedTag "start")) ∧
    (∀ t, Table.new rs = .err (.UndefinedTag t) →
      lookupT (mapOf rs) t = none ∧ t ≠ "end" ∧
        ∃ d, follow (mapOf rs) "start" d = some t) := by
  have hb : buildMap rs [] = .ok (mapOf rs) := buildMap_ok rs hnd
  constructor
  · intro hstart
    have hlk : lookupT (mapOf rs) "start" = none := by
      rw [lookupT_eq_none, keysOf_mapOf]
      exact hstart
    have ht : traverse (mapOf rs) ((mapOf rs).length + 1) [] [] "start" =
        .err (.UndefinedTag "start") := by
      rw [traverse, hlk]
    exact tableNew_err_intro hb ht
  · intro t h
    rcases tableNew_err_inv h with hbe | ⟨m, hbm, ht⟩
    · rw [hb] at hbe
      cases hbe
    · rw [hb] at hbm
      injection hbm with hbm
      subst hbm
      exact traverse_undefined_sound (by decide) ht

/-- Witness for C4 on the dangling-diamond rule set, whose traversal
reaches the absent tag "x": the failure names "x", which is absent,
not "end", and reachable. -/
theorem c4_witness :
    lookupT (mapOf dangRules) "x" = none ∧ "x" ≠ "end" ∧
      ∃ d, follow (mapOf dangRules) "start" d = some "x" :=
  (c4_undefined_tag dangRules (by decide)).2 "x" rfl

/-- C7 counterexample: a rule list containing a rule tagged "end" is
accepted by Table::new and the reserved label "end" IS a key of the
resulting table's rule map. -/
theorem c7_counterexample :
    Table.new [endOnly, endTagged] =
      .ok { rules := mapOf [endOnly, endTagged], used := [] } ∧
    "end" ∈ keysOf (mapOf [endOnly, endTagged]) := by
  refine ⟨rfl, ?_⟩
  decide

/-- C7 amended: a Rule tagged "end" is inserted into the rule map like
any other rule (so "end" can be a key), but the construction traversal
treats "end" purely as the terminal sentinel: it never visits it, so
"end" is never in the visited set of a successful validation. -/
theorem c7_amended_end_never_visited (rs : List Rule) (T : Table)
    (h : Table.new rs = .ok T) :
    ∀ l u, traverse T.rules (T.rules.length + 1) [] [] "start" = .ok l u →
      "end" ∉ l := by
  intro l u ht
  exact traverse_ok_end_not_visited (by decide) (List.not_mem_nil _) ht

/-- Witness for C7 amended, on the very rule set of the counterexample:
its successful traversal's visited set avoids "end". -/
theorem c7_witness :
    Table.new [endOnly, endTagged] =
      .ok { rules := mapOf [endOnly, endTagged], used := [] } ∧
    "end" ∉ (["start"] : List String) :=
  ⟨rfl, c7_amended_end_never_visited [endOnly, endTagged]
    { rules := mapOf [endOnly, endTagged], used := [] } rfl ["start"] [] rfl⟩

/-- C5 counterexample: the table of the claim — one rule tagged start,
matcher Any, on-match (Query "mock", "end"), no-match (Skip, "start") —
cannot be built at all: Table::new rejects it with
RuleRecursion "start" (this is the repository's own
fail_table_recursion test). -/
theorem c5_counterexample : Table.new [ruleLoop] = .err (.RuleRecursion "start") := rfl

/-- C5 amended: with the no-match branch going to "end" instead of
"start", the one-rule table builds, and routing any query with at least
one question returns exactly what upstream "mock" returned, after
exactly one step (the loop completes with fuel two — one rule step plus
the final end check — and not with fuel one). -/
theorem c5_amended_one_step :
    Table.new [ruleStraight] = .ok tableStraight ∧
    ∀ (q : Message) (send : String → Message → Except ActionErr Message) (m : Message),
      q.queries ≠ [] → send "mock" q = .ok m →
      Table.route tableStraight q send 2 = .ok m ∧
      Table.route tableStraight q send 1 = .out := by
  refine ⟨rfl, ?_⟩
  intro q send m hq hsend
  rcases hqq : q.queries with _ | ⟨q0, qrest⟩
  · exact absurd hqq hq
  have hact : ruleStraight.onMatch.1.act send { resp := Message.new, query := q } =
      Except.ok { resp := m, query := q } := by
    show (match send "mock" q with
          | Except.error e => Except.error e
          | Except.ok resp => Except.ok ({ resp := resp, query := q } : State)) =
      Except.ok { resp := m, query := q }
    rw [hsend]
  have hrr : ruleStraight.route send { resp := Message.new, query := q } =
      Except.ok ({ resp := m, query := q }, "end") := by
    rw [Rule.route]
    rw [if_pos (show Matcher.matches ruleStraight.matcher q.queries
      Message.new.answers = true from rfl)]
    rw [hact]
    rfl
  constructor
  · rw [Table.route, hqq]
    simp only [List.head?]
    rw [routeLoop]
    rw [if_neg (by decide : ¬("start" : String) = "end")]
    rw [show lookupT tableStraight.rules "start" = some ruleStraight from rfl]
    simp only []
    rw [hrr]
    simp only []
    rw [routeLoop]
    rfl
  · rw [Table.route, hqq]
    simp only [List.head?]
    rw [routeLoop]
    rw [if_neg (by decide : ¬("start" : String) = "end")]
    rw [show lookupT tableStraight.rules "start" = some ruleStraight from rfl]
    simp only []
    rw [hrr]
    rfl

/-- Witness for C5 amended at a concrete query and upstream function. -/
theorem c5_witness :
    Table.route tableStraight qOne sendMock 2 = .ok mockResp ∧
    Table.route tableStraight qOne sendMock 1 = .out :=
  c5_amended_one_step.2 qOne sendMock mockResp (by decide) rfl

/-- C6: for every Table successfully returned by Table::new, every tag
reachable from "start" along the on-match/no-match edges (the sentinel
"end" is never such a tag, since edges into "end" terminate) is a key
of the rule map, and consequently the rule lookup inside Table::route's
loop can never hit the unwrap panic, for any query, upstream function
and fuel. -/
theorem c6_reachable_defined (rs : List Rule) (T : Table) (h : Table.new rs = .ok T) :
    (∀ s, (∃ d, follow T.rules "start" d = some s) →
      (lookupT T.rules s).isSome = true) ∧
    (∀ (q : Message) (send : String → Message → Except ActionErr Message)
      (fuel : Nat) (x : String), Table.route T q send fuel ≠ .panicLookup x) := by
  obtain ⟨l, u, hb, ht, hu⟩ := tableNew_ok_inv h
  have hcl : ∀ s, (∃ d, follow T.rules "start" d = some s) →
      (lookupT T.rules s).isSome = true := by
    rintro s ⟨d, hd⟩
    have hmem : s ∈ l := (traverse_ok_reach ht d s hd).2
    have hkeys := (traverse_ok_nodup List.nodup_nil (by simp) ht).2
    rw [lookupT_isSome]
    exact hkeys s hmem
  refine ⟨hcl, ?_⟩
  intro q send fuel x
  rw [Table.route]
  rcases hq : q.queries.head? with _ | q0
  · intro hcon
    cases hcon
  · simp only []
    exact routeLoop_no_panic hcl (Or.inr ⟨[], rfl⟩) x

/-- Witness for C6 on the concrete one-rule table. -/
theorem c6_witness :
    (lookupT tableStraight.rules "start").isSome = true ∧
    Table.route tableStraight qOne sendMock 7 ≠ .panicLookup "start" :=
  ⟨(c6_reachable_defined [ruleStraight] tableStraight rfl).1 "start" ⟨[], rfl⟩,
   (c6_reachable_defined [ruleStraight] tableStraight rfl).2 qOne sendMock 7 "start"⟩

/-- C2 counterexample: the diamond rule set — both branches of "start"
lead to "a" — has pairwise distinct tags, no dangling next-tag
reference (every reachable tag is defined), and no tag repeated on any
depth-first path, yet Table::new FAILS with RuleRecursion "a" instead
of succeeding: the visited set is shared across the two branches. -/
theorem c2_counterexample :
    (tagsOf diamondRules).Nodup ∧
    (∀ t d, follow (mapOf diamondRules) "start" d = some t → t ∈ tagsOf diamondRules) ∧
    (∀ d ts, pathTags (mapOf diamondRules) "start" d = some ts → ts.Nodup) ∧
    Table.new diamondRules = .err (.RuleRecursion "a") := by
  refine ⟨by decide, ?_, ?_, rfl⟩
  · intro t d h
    rcases diamond_follow d t h with h' | h' <;> subst h' <;> decide
  · exact diamond_path

/-- C2 amended: for every rule set with pairwise distinct tags, no
dangling next-tag reference, and NO TAG REACHABLE ALONG TWO DISTINCT
BRANCH PATHS from "start" (strictly stronger than "no tag repeated on a
single path": it also excludes convergent diamonds and duplicated
branch targets), Table::new succeeds and used() is exactly the union of
the upstream names declared by the rules reachable from "start";
unreachable rules contribute nothing. -/
theorem c2_amended_success_used (rs : List Rule)
    (hnd : (tagsOf rs).Nodup)
    (hcl : ∀ t d, follow (mapOf rs) "start" d = some t → t ∈ tagsOf rs)
    (huniq : ∀ t d1 d2, follow (mapOf rs) "start" d1 = some t →
      follow (mapOf rs) "start" d2 = some t → d1 = d2) :
    ∃ T, Table.new rs = .ok T ∧ T.rules = mapOf rs ∧
      (∀ x, x ∈ T.used ↔ ∃ t r d, follow (mapOf rs) "start" d = some t ∧
        lookupT (mapOf rs) t = some r ∧ x ∈ r.usedUpstreams) := by
  have hb : buildMap rs [] = .ok (mapOf rs) := buildMap_ok rs hnd
  have hcl' : ∀ t d, follow (mapOf rs) "start" d = some t → t ∈ keysOf (mapOf rs) := by
    intro t d h
    rw [keysOf_mapOf]
    exact hcl t d h
  obtain ⟨l, u, ht, hlc, huc⟩ :=
    @traverse_ok_construct (mapOf rs) ((mapOf rs).length + 1) [] [] "start" hcl'
      (fun t d _ => List.not_mem_nil t) huniq List.nodup_nil (by simp)
      (by simp only [List.length_nil]; omega)
  refine ⟨{ rules := mapOf rs, used := u }, tableNew_ok_intro hb ht, rfl, ?_⟩
  intro x
  have := huc x
  simpa using this

/-- Witness for C2 amended: the straight one-rule table satisfies the
hypotheses and yields the table whose used set is exactly "mock". -/
theorem c2_witness :
    ∃ T, Table.new [ruleStraight] = .ok T ∧ T.rules = mapOf [ruleStraight] ∧
      (∀ x, x ∈ T.used ↔ ∃ t r d, follow (mapOf [ruleStraight]) "start" d = some t ∧
        lookupT (mapOf [ruleStraight]) t = some r ∧ x ∈ r.usedUpstreams) :=
  c2_amended_success_used [ruleStraight] (by decide)
    (fun t d h => by rw [(straight_follow d t h).1]; decide)
    (fun t d1 d2 h1 h2 => by rw [(straight_follow d1 t h1).2, (straight_follow d2 t h2).2])

/-- C1 counterexample: in the dangling-diamond rule set, tag "c" is
reachable along two different depth-first branch paths, yet Table::new
does not fail with RuleRecursion: the depth-first traversal meets the
dangling tag "x" first and fails with UndefinedTag "x". -/
theorem c1_counterexample :
    follow (mapOf dangRules) "start" [true, false] = some "c" ∧
    follow (mapOf dangRules) "start" [false, true] = some "c" ∧
    ([true, false] : List Bool) ≠ [false, true] ∧
    Table.new dangRules = .err (.UndefinedTag "x") := by
  refine ⟨rfl, rfl, by decide, rfl⟩

/-- C1 amended: for every rule set with pairwise distinct tags and no
dangling next-tag reference, if some tag is reachable from "start"
along two different branch paths — which covers both the convergent
diamond and every cycle back into an ancestor of the same depth-first
path — then Table::new fails with RuleRecursion naming a tag that is
itself reachable from "start".  (Because the visited set is shared
across the on-match and no-match branches and never cleared.) -/
theorem c1_shared_visited_rejects (rs : List Rule)
    (hnd : (tagsOf rs).Nodup)
    (hcl : ∀ t d, follow (mapOf rs) "start" d = some t → t ∈ tagsOf rs)
    (t0 : String) (d1 d2 : List Bool) (hne : d1 ≠ d2)
    (h1 : follow (mapOf rs) "start" d1 = some t0)
    (h2 : follow (mapOf rs) "start" d2 = some t0) :
    ∃ t, Table.new rs = .err (.RuleRecursion t) ∧
      ∃ d, follow (mapOf rs) "start" d = some t := by
  have hb : buildMap rs [] = .ok (mapOf rs) := buildMap_ok rs hnd
  have hcl' : ∀ t d, follow (mapOf rs) "start" d = some t → t ∈ keysOf (mapOf rs) := by
    intro t d h
    rw [keysOf_mapOf]
    exact hcl t d h
  rcases ht : traverse (mapOf rs) ((mapOf rs).length + 1) [] [] "start"
    with _ | e | ⟨l, u⟩
  · exact absurd ht (traverse_ne_out List.nodup_nil (by simp)
      (by simp only [List.length_nil]; omega))
  · rcases e with t | t | t
    · exact ⟨t, tableNew_err_intro hb ht, traverse_recursion_sound ht⟩
    · exact absurd ht (traverse_no_undefined hcl')
    · exact absurd ht traverse_no_multipleDef
  · exact absurd (traverse_ok_unique ht d1 d2 t0 h1 h2) hne

/-- Witness for C1 amended: the diamond rule set satisfies the
hypotheses ("a" is reachable along the two branch paths of "start") and
Table::new indeed fails with RuleRecursion on a reachable tag. -/
theorem c1_witness :
    ∃ t, Table.new diamondRules = .err (.RuleRecursion t) ∧
      ∃ d, follow (mapOf diamondRules) "start" d = some t :=
  c1_shared_visited_rejects diamondRules (by decide)
    (fun t d h => by rcases diamond_follow d t h with h' | h' <;> subst h' <;> decide)
    "a" [true] [false] (by decide) rfl rfl

end DCompass
